import Mathlib

/-!
Verification of the Aurion v1 self-modification pipeline (server.js).

The definitions below are a shallow embedding of the self-edit subsystem of
the server: the write fence (`assertAllowed`), the patch engine
(`applyJsonPatch` with its `create` / `replace` / `append` / `insertAfter`
branches), the backup/restore mechanism (`writeWithBackup` backups and the
`backups.reverse()` restore loops), the validation runner (the test-step
loop around `runCmd`), and the lifecycle handlers `/selfedit/propose`,
`/selfedit/validate` and `/selfedit/approve`.

File contents are modelled as `List Char` (JS strings), and the file system
as an association list from path strings to contents.  Backup files live in
a separate backups directory keyed by a fresh timestamped name, so a backup
record is modelled by the bytes it stores (`Option Content`) together with
the target path, exactly the data the restore loops use.  Subprocess
execution (`child_process.exec`) is an external collaborator and is
modelled by an oracle giving each spawned command's exit code and output;
`exec` reports an error exactly when the command exits non-zero.
-/

namespace Aurion

/-- File contents: a JS string, as a list of characters. -/
abbrev Content := List Char

/-- The mutable file system under `process.cwd()`: an association list from
relative path to file contents. -/
abbrev FS := List (String × Content)

/-- Read a file (`fs.readFileSync` / `fs.existsSync`): `none` means the file
does not exist. -/
def fsRead : FS → String → Option Content
  | [], _ => none
  | (q, c) :: tl, p => if q = p then some c else fsRead tl p

/-- Write a file (`fs.writeFileSync`), creating it if absent. -/
def fsWrite : FS → String → Content → FS
  | [], p, c => [(p, c)]
  | (q, d) :: tl, p, c => if q = p then (p, c) :: tl else (q, d) :: fsWrite tl p c

/-- JS `String.prototype.indexOf` for a substring pattern: index of the first
occurrence of `pat`, `none` when there is no occurrence (JS returns `-1`).
An empty pattern is found at index 0. -/
def strFindIdx (pat : Content) : Content → Option Nat
  | [] => if pat.isPrefixOf ([] : Content) then some 0 else none
  | c :: tl =>
    if pat.isPrefixOf (c :: tl) then some 0
    else (strFindIdx pat tl).map (· + 1)

/-- JS `String.prototype.replace` with a plain-string pattern: replaces the
first occurrence of `find` (if any) and leaves the rest of the string
untouched; returns the string unchanged when `find` does not occur. -/
def replaceFirst (s find repl : Content) : Content :=
  match strFindIdx find s with
  | none => s
  | some i => s.take i ++ repl ++ s.drop (i + find.length)

/-- JS `String.prototype.startsWith`. -/
def strStartsWith (s pre : String) : Bool := pre.data.isPrefixOf s.data

/-- The write-fence allow-list (`const PATCH_ALLOW = ['addons/']`). -/
def PATCH_ALLOW : List String := ["addons/"]

/-- `assertAllowed(target)`: `core.json` is accepted unconditionally by the
first line; otherwise the target must equal or extend an allow-list entry,
else the function throws. -/
def assertAllowed (target : String) : Except String Unit :=
  if target = "core.json" then .ok ()
  else if PATCH_ALLOW.any (fun pre => target == pre || strStartsWith target pre) then .ok ()
  else .error ("Path not allowed by write fence: " ++ target)

/-- A patch object as consumed by `applyJsonPatch`.  Optional JSON fields are
`Option`s; `none` models an absent (`undefined`) field. -/
structure Patch where
  target : String
  action : String
  anchor : Option Content := none
  find : Option Content := none
  repl : Option Content := none
  snippet : Option Content := none
  deriving DecidableEq

/-- The value returned by `applyJsonPatch`: the target path and, for
non-`create` actions, the bytes saved at the fresh timestamped backup path
by `writeWithBackup` (`none` for `create`, which takes no backup). -/
structure ApplyResult where
  backupPath : Option Content
  target : String
  deriving DecidableEq

/-- `applyJsonPatch(patch)`: fence check, then dispatch on `patch.action`.
`create` writes `snippet || ''` to a fresh file with no backup; the other
actions require the file to exist, compute the next content (`replace` the
first occurrence of `find`, `append` with a newline separator, `insertAfter`
splicing `'\n' + snippet` after the first occurrence of `anchor || ''`), and
write it through `writeWithBackup`, returning the backed-up previous
content.  Errors model the thrown exceptions. -/
def applyJsonPatch (fs : FS) (patch : Patch) : Except String (FS × ApplyResult) :=
  match assertAllowed patch.target with
  | .error e => .error e
  | .ok _ =>
    if patch.action = "create" then
      match fsRead fs patch.target with
      | some _ => .error ("File already exists: " ++ patch.target)
      | none =>
        .ok (fsWrite fs patch.target (patch.snippet.getD []),
             { backupPath := none, target := patch.target })
    else
      match fsRead fs patch.target with
      | none => .error ("File not found: " ++ patch.target)
      | some current =>
        if patch.action = "replace" then
          match patch.find with
          | none => .error "replace requires find"
          | some f =>
            if f = [] then .error "replace requires find"
            else
              let next := replaceFirst current f (patch.repl.getD [])
              if next = current then .error ("No match for find in " ++ patch.target)
              else
                .ok (fsWrite fs patch.target next,
                     { backupPath := some current, target := patch.target })
        else if patch.action = "append" then
          .ok (fsWrite fs patch.target (current ++ '\n' :: patch.snippet.getD []),
               { backupPath := some current, target := patch.target })
        else if patch.action = "insertAfter" then
          let anchor := patch.anchor.getD []
          match strFindIdx anchor current with
          | none => .error ("Anchor not found in " ++ patch.target)
          | some idx =>
            let pos := idx + anchor.length
            .ok (fsWrite fs patch.target
                   (current.take pos ++ '\n' :: patch.snippet.getD [] ++ current.drop pos),
                 { backupPath := some current, target := patch.target })
        else .error ("Unsupported action: " ++ patch.action)

/-- Restore one backup (`fs.copyFileSync(b.backupPath, b.target)`); a record
with no backup bytes restores nothing. -/
def restoreOne (fs : FS) (b : ApplyResult) : FS :=
  match b.backupPath with
  | some c => fsWrite fs b.target c
  | none => fs

/-- Run the restore loop `for (const b of list) copy(b.backupPath, b.target)`
over a list of backup records (callers pass the reversed backups array). -/
def restoreBackups (fs : FS) (bs : List ApplyResult) : FS :=
  bs.foldl restoreOne fs

/-- A test step of a proposal (`{cmd, description}`). -/
structure Step where
  cmd : String
  description : Option String := none
  deriving DecidableEq

/-- The observable outcome of one spawned subprocess: the external
collaborator's side of `child_process.exec`. -/
structure CmdOutcome where
  exitCode : Int
  stdout : Content := []
  stderr : Content := []
  deriving DecidableEq

/-- What `runCmd` resolves with: `exec` invokes the callback with an error
exactly when the command exits non-zero, so `ok = !err` is `exitCode == 0`
and `code = err ? err.code : 0` is the exit code in either case. -/
structure RunResult where
  ok : Bool
  code : Int
  stdout : Content
  stderr : Content
  deriving DecidableEq

/-- `runCmd(cmd)` given the subprocess outcome supplied by the environment. -/
def runCmd (o : CmdOutcome) : RunResult :=
  { ok := o.exitCode == 0, code := o.exitCode, stdout := o.stdout, stderr := o.stderr }

/-- One entry of the `results` array built by the validate test loop:
`{ step: s.description || s.cmd, ok, code, stdout, stderr }`. -/
structure StepResult where
  step : String
  ok : Bool
  code : Int
  stdout : Content
  stderr : Content
  deriving DecidableEq

/-- Build one `results` entry; `s.description || s.cmd` falls back to the
command when the description is absent or the empty string. -/
def mkStepResult (s : Step) (r : RunResult) : StepResult :=
  { step := match s.description with
            | some d => if d = "" then s.cmd else d
            | none => s.cmd,
    ok := r.ok, code := r.code, stdout := r.stdout, stderr := r.stderr }

/-- The validate test loop (`for (const s of steps) { ... if (!r.ok) allOk
= false }`), threading the `allOk` accumulator exactly as the imperative
code does.  The oracle gives the outcome of the `k`-th spawned command. -/
def runStepsLoop (oracle : Nat → CmdOutcome) : Nat → Bool → List Step → List StepResult × Bool
  | _, allOk, [] => ([], allOk)
  | i, allOk, s :: rest =>
    let r := runCmd (oracle i)
    let allOk' := if r.ok then allOk else false
    let tail := runStepsLoop oracle (i + 1) allOk' rest
    (mkStepResult s r :: tail.1, tail.2)

/-- The validation runner: run every step starting with `allOk = true`. -/
def runSteps (oracle : Nat → CmdOutcome) (steps : List Step) : List StepResult × Bool :=
  runStepsLoop oracle 0 true steps

/-- The `apply` record persisted by approve: the backups taken in that call
(`backups.map(b => ({file: b.target, backup: b.backupPath}))`). -/
structure ApplyRecord where
  backups : List ApplyResult
  deriving DecidableEq

/-- A persisted proposal record (one `proposals/<id>.json` file): its
lifecycle status, the proposal's patches and tests, and the optional
validation / apply result records. -/
structure Record where
  status : String
  patches : List Patch
  tests : List Step
  validation : Option (Bool × List StepResult) := none
  applyRec : Option ApplyRecord := none
  deriving DecidableEq

/-- The shared patch loop of validate and approve:
`for (const patch of patches) { const result = applyJsonPatch(patch);
if (result.backupPath) backups.push(result); }`.  On a thrown patch error it
returns the error together with the file system and backups accumulated so
far (what a `catch` handler can see). -/
def applyLoop : FS → List ApplyResult → List Patch → (FS × List ApplyResult) ⊕ (String × FS × List ApplyResult)
  | fs, acc, [] => Sum.inl (fs, acc)
  | fs, acc, p :: rest =>
    match applyJsonPatch fs p with
    | .ok (fs', r) => applyLoop fs' (acc ++ (if r.backupPath.isSome then [r] else [])) rest
    | .error e => Sum.inr (e, fs, acc)

/-- Project the file system and backups out of either outcome of the loop. -/
def loopFS : (FS × List ApplyResult) ⊕ (String × FS × List ApplyResult) → FS × List ApplyResult
  | .inl (fs, bks) => (fs, bks)
  | .inr (_, fs, bks) => (fs, bks)

/-- Outcome of a `/selfedit/validate` call. -/
inductive ValidateOutcome where
  | patchFailed (err : String)
  | ran (allOk : Bool) (results : List StepResult)
  deriving DecidableEq

/-- `/selfedit/validate`: apply every patch, collecting backups; on a patch
failure restore the backups latest-first and return 422 without touching the
record; on success run the test steps (defaulting to the built-in
`npm run build` step when `tests` is empty), then unconditionally restore
the backups latest-first, set the status to `validated` or
`failed_validation` and record the results. -/
def validate (fs : FS) (r0 : Record) (oracle : Nat → CmdOutcome) : FS × Record × ValidateOutcome :=
  match applyLoop fs [] r0.patches with
  | .inr (e, fs1, bks) =>
    (restoreBackups fs1 bks.reverse, r0, .patchFailed e)
  | .inl (fs1, bks) =>
    let steps := if r0.tests.isEmpty
      then [{ cmd := "npm run build", description := some "Build should pass" : Step }]
      else r0.tests
    let run := runSteps oracle steps
    let fs2 := restoreBackups fs1 bks.reverse
    (fs2,
     { r0 with status := if run.2 then "validated" else "failed_validation",
               validation := some (run.2, run.1) },
     .ran run.2 run.1)

/-- `/selfedit/approve`: apply every patch (no status guard, no try/catch
around the loop — a thrown patch error propagates to the route's outer
handler, which replies 500 without restoring anything); on success run
`npm run build` once, set the status to `applied` or
`applied_with_build_errors`, and persist the backups in the `apply`
record.  The returned `FS` is the file system as the call leaves it. -/
def approve (fs : FS) (r0 : Record) (build : CmdOutcome) : FS × Except String Record :=
  match applyLoop fs [] r0.patches with
  | .inr (e, fs1, _) => (fs1, .error e)
  | .inl (fs1, bks) =>
    let buildOk := (runCmd build).ok
    (fs1,
     .ok { r0 with status := if buildOk then "applied" else "applied_with_build_errors",
                   applyRec := some { backups := bks } })

/-- A patch as it appears in raw generator output, before any validation:
`some s` models a JSON field present with string type, `none` a field that
is absent or not a string (`typeof p.x === 'string'` fails). -/
structure RawPatch where
  target : Option String
  action : Option String
  deriving DecidableEq

/-- `isValidPatch(p)`: `typeof p.target === 'string' && typeof p.action ===
'string'` — nothing more. -/
def isValidPatch (p : RawPatch) : Bool := p.target.isSome && p.action.isSome

/-- The patch actions `applyJsonPatch` recognizes. -/
def recognizedActions : List String := ["create", "append", "insertAfter", "replace"]

/-- The structural check `generatePatch` performs on the generator's output:
`json.patches` must be present as an array and every element must pass
`isValidPatch`, else `Invalid patches in mirror proposal.` is thrown.
`none` models a missing or non-array `patches` field. -/
def generatePatchCheck (patches : Option (List RawPatch)) : Except String (List RawPatch) :=
  match patches with
  | none => .error "Invalid patches in mirror proposal."
  | some ps =>
    if ps.all isValidPatch then .ok ps
    else .error "Invalid patches in mirror proposal."

/-- `/selfedit/propose`: run the generator's structural check; on success
persist the proposal (append its patch list to the proposal store), on
failure reply 500 with nothing persisted. -/
def propose (store : List (List RawPatch)) (gen : Option (List RawPatch)) :
    Except String (List (List RawPatch)) :=
  match generatePatchCheck gen with
  | .error e => .error e
  | .ok ps => .ok (store ++ [ps])

/-! ### Helper lemmas about the file-system model -/

/-- Reading after a write: the written path holds the new content and every
other path is untouched. -/
theorem fsRead_fsWrite (fs : FS) (p q : String) (c : Content) :
    fsRead (fsWrite fs p c) q = if p = q then some c else fsRead fs q := by
  induction fs with
  | nil => by_cases h : p = q <;> simp [fsWrite, fsRead, h]
  | cons e tl ih =>
    obtain ⟨r, d⟩ := e
    simp only [fsWrite]
    by_cases hrp : r = p
    · subst hrp
      by_cases hpq : r = q
      · subst hpq; simp [fsRead]
      · simp [fsRead, hpq]
    · simp only [if_neg hrp, fsRead]
      by_cases hrq : r = q
      · subst hrq
        have hpr : ¬p = r := fun h => hrp h.symm
        simp [hpr]
      · simp [hrq, ih]

/-- Writing never deletes: any existing path still exists afterwards. -/
theorem fsWrite_mono (fs : FS) (p q : String) (c : Content)
    (h : (fsRead fs q).isSome) : (fsRead (fsWrite fs p c) q).isSome := by
  rw [fsRead_fsWrite]
  by_cases hpq : p = q <;> simp [hpq, h]

/-- The restore loop's final content at a path depends on the starting file
system only through that path's content. -/
theorem restore_congr_at (bs : List ApplyResult) (g₁ g₂ : FS) (q : String)
    (h : fsRead g₁ q = fsRead g₂ q) :
    fsRead (restoreBackups g₁ bs) q = fsRead (restoreBackups g₂ bs) q := by
  induction bs generalizing g₁ g₂ with
  | nil => simpa [restoreBackups] using h
  | cons b tl ih =>
    simp only [restoreBackups, List.foldl_cons] at *
    apply ih
    cases hb : b.backupPath with
    | none => simpa [restoreOne, hb] using h
    | some c => simp [restoreOne, hb, fsRead_fsWrite, h]

/-! ### Helper lemmas about substring search -/

/-- A successful Boolean prefix test yields the suffix decomposition. -/
theorem isPrefixOf_exists : ∀ (pat l : Content), pat.isPrefixOf l = true → ∃ t, l = pat ++ t
  | [], l, _ => ⟨l, rfl⟩
  | _ :: _, [], h => by simp [List.isPrefixOf] at h
  | a :: as, b :: bs, h => by
    simp only [List.isPrefixOf, Bool.and_eq_true, beq_iff_eq] at h
    obtain ⟨rfl, h2⟩ := h
    obtain ⟨t, rfl⟩ := isPrefixOf_exists as bs h2
    exact ⟨t, rfl⟩

/-- The index returned by `strFindIdx` is an occurrence of the pattern. -/
theorem strFindIdx_found (pat : Content) (s : Content) (i : Nat)
    (h : strFindIdx pat s = some i) : pat.isPrefixOf (s.drop i) = true := by
  induction s generalizing i with
  | nil =>
    simp only [strFindIdx] at h
    split at h
    · rename_i hp; cases h; simpa using hp
    · exact Option.noConfusion h
  | cons c tl ih =>
    simp only [strFindIdx] at h
    split at h
    · rename_i hp; cases h; simpa using hp
    · cases hr : strFindIdx pat tl with
      | none => rw [hr] at h; simp at h
      | some j =>
        rw [hr] at h
        simp only [Option.map_some', Option.some.injEq] at h
        subst h
        simpa [List.drop_succ_cons] using ih j hr

/-- The index returned by `strFindIdx` is the first occurrence: the pattern
does not occur at any earlier index. -/
theorem strFindIdx_minimal (pat s : Content) (i : Nat)
    (h : strFindIdx pat s = some i) :
    ∀ j, j < i → pat.isPrefixOf (s.drop j) = false := by
  induction s generalizing i with
  | nil =>
    intro j hj
    simp only [strFindIdx] at h
    split at h
    · cases h; omega
    · exact Option.noConfusion h
  | cons c tl ih =>
    intro j hj
    simp only [strFindIdx] at h
    split at h
    · cases h; omega
    · rename_i hp
      rw [Bool.not_eq_true] at hp
      cases hr : strFindIdx pat tl with
      | none => rw [hr] at h; simp at h
      | some k =>
        rw [hr] at h
        simp only [Option.map_some', Option.some.injEq] at h
        subst h
        cases j with
        | zero => simpa using hp
        | succ j' => simpa [List.drop_succ_cons] using ih k hr j' (by omega)

/-- The index returned by `strFindIdx` never exceeds the string length. -/
theorem strFindIdx_le_length (pat s : Content) (i : Nat)
    (h : strFindIdx pat s = some i) : i ≤ s.length := by
  induction s generalizing i with
  | nil =>
    simp only [strFindIdx] at h
    split at h
    · cases h; simp
    · exact Option.noConfusion h
  | cons c tl ih =>
    simp only [strFindIdx] at h
    split at h
    · cases h; simp
    · cases hr : strFindIdx pat tl with
      | none => rw [hr] at h; simp at h
      | some j =>
        rw [hr] at h
        simp only [Option.map_some', Option.some.injEq] at h
        subst h
        simpa using Nat.succ_le_succ (ih j hr)

/-- The empty pattern is found at index 0 (JS `indexOf('')` is `0`). -/
theorem strFindIdx_nil (s : Content) : strFindIdx [] s = some 0 := by
  cases s <;> simp [strFindIdx, List.isPrefixOf]

/-- Dropping past an appended prefix reaches into the suffix. -/
theorem drop_append_length (a b : List Char) (n : Nat) :
    (a ++ b).drop (a.length + n) = b.drop n := by
  rw [← List.drop_drop, List.drop_left]

/-! ### Characterization of a successful patch application -/

/-- A successful `applyJsonPatch` writes exactly one file — the patch's
target — and returns as backup the file's previous content, or no backup
exactly when the file did not exist (the `create` branch). -/
theorem apply_ok_shape {fs : FS} {p : Patch} {fs' : FS} {r : ApplyResult}
    (h : applyJsonPatch fs p = .ok (fs', r)) :
    ∃ next, fs' = fsWrite fs r.target next ∧
      ((∃ cur, fsRead fs r.target = some cur ∧ r.backupPath = some cur) ∨
       (fsRead fs r.target = none ∧ r.backupPath = none)) := by
  unfold applyJsonPatch at h
  split at h
  · exact Except.noConfusion h
  · split at h
    · -- create branch
      split at h
      · exact Except.noConfusion h
      · rename_i hread
        simp only [Except.ok.injEq, Prod.mk.injEq] at h
        obtain ⟨hfs, hr⟩ := h
        subst hfs; subst hr
        exact ⟨_, rfl, Or.inr ⟨hread, rfl⟩⟩
    · split at h
      · exact Except.noConfusion h
      · rename_i hread
        split at h
        · -- replace branch
          split at h
          · exact Except.noConfusion h
          · split at h
            · exact Except.noConfusion h
            · dsimp only at h
              split at h
              · exact Except.noConfusion h
              · simp only [Except.ok.injEq, Prod.mk.injEq] at h
                obtain ⟨hfs, hr⟩ := h
                subst hfs; subst hr
                exact ⟨_, rfl, Or.inl ⟨_, hread, rfl⟩⟩
        · split at h
          · -- append branch
            simp only [Except.ok.injEq, Prod.mk.injEq] at h
            obtain ⟨hfs, hr⟩ := h
            subst hfs; subst hr
            exact ⟨_, rfl, Or.inl ⟨_, hread, rfl⟩⟩
          · split at h
            · -- insertAfter branch
              dsimp only at h
              split at h
              · exact Except.noConfusion h
              · simp only [Except.ok.injEq, Prod.mk.injEq] at h
                obtain ⟨hfs, hr⟩ := h
                subst hfs; subst hr
                exact ⟨_, rfl, Or.inl ⟨_, hread, rfl⟩⟩
            · exact Except.noConfusion h

/-- A successful patch application never deletes a file. -/
theorem apply_ok_mono {fs fs' : FS} {p : Patch} {r : ApplyResult}
    (h : applyJsonPatch fs p = .ok (fs', r)) (q : String)
    (hq : (fsRead fs q).isSome) : (fsRead fs' q).isSome := by
  obtain ⟨next, hfs', _⟩ := apply_ok_shape h
  subst hfs'
  exact fsWrite_mono _ _ _ _ hq

/-- Restoring the backup of one successful patch application recovers the
previous content at every path that existed before the patch ran (a created
file stays behind — it had no backup). -/
theorem apply_ok_restoreOne {fs fs' : FS} {p : Patch} {r : ApplyResult}
    (h : applyJsonPatch fs p = .ok (fs', r)) (q : String) :
    fsRead (restoreOne fs' r) q = fsRead fs q ∨ fsRead fs q = none := by
  obtain ⟨next, hfs', hcase⟩ := apply_ok_shape h
  subst hfs'
  rcases hcase with ⟨cur, hread, hbk⟩ | ⟨hread, hbk⟩
  · left
    by_cases ht : r.target = q
    · subst ht
      simp [restoreOne, hbk, fsRead_fsWrite, hread]
    · simp [restoreOne, hbk, fsRead_fsWrite, ht]
  · by_cases ht : r.target = q
    · right; subst ht; exact hread
    · left; simp [restoreOne, hbk, fsRead_fsWrite, ht]

/-- The conditional `backups.push` commutes with the reversed restore loop:
restoring the grown list is restoring the new record first, then the old
list. -/
theorem push_step (fs₁ : FS) (acc : List ApplyResult) (r : ApplyResult) :
    restoreBackups fs₁ ((acc ++ (if r.backupPath.isSome then [r] else [])).reverse) =
      restoreBackups (restoreOne fs₁ r) acc.reverse := by
  cases hb : r.backupPath with
  | none => simp [restoreOne, hb]
  | some c => simp [restoreBackups, restoreOne, hb, List.reverse_append]

/-- Main invariant of the shared patch loop: at any point, restoring the
reversed accumulated backups recovers the pre-loop content of every path
that existed before the loop started. -/
theorem applyLoop_restore_invariant (patches : List Patch) :
    ∀ (fs : FS) (acc : List ApplyResult) (fs0 : FS),
      (∀ q, fsRead (restoreBackups fs acc.reverse) q = fsRead fs0 q ∨ fsRead fs0 q = none) →
      (∀ q, (fsRead fs0 q).isSome → (fsRead fs q).isSome) →
      ∀ q, fsRead (restoreBackups (loopFS (applyLoop fs acc patches)).1
              (loopFS (applyLoop fs acc patches)).2.reverse) q
            = fsRead fs0 q ∨ fsRead fs0 q = none := by
  induction patches with
  | nil => intro fs acc fs0 H1 _ q; simpa [applyLoop, loopFS] using H1 q
  | cons p rest ih =>
    intro fs acc fs0 H1 H2 q
    cases happ : applyJsonPatch fs p with
    | error e =>
      simp only [applyLoop, happ]
      simpa [loopFS] using H1 q
    | ok out =>
      obtain ⟨fs', r⟩ := out
      have step : applyLoop fs acc (p :: rest)
          = applyLoop fs' (acc ++ (if r.backupPath.isSome then [r] else [])) rest := by
        simp [applyLoop, happ]
      rw [step]
      refine ih fs' _ fs0 ?_ ?_ q
      · intro z
        rw [push_step]
        rcases apply_ok_restoreOne happ z with hres | hnone
        · rw [restore_congr_at acc.reverse (restoreOne fs' r) fs z hres]
          exact H1 z
        · right
          cases h0 : fsRead fs0 z with
          | none => rfl
          | some c =>
            have := H2 z (by simp [h0])
            rw [hnone] at this
            simp at this
      · intro z hz
        exact apply_ok_mono happ z (H2 z hz)

/-! ### Claim theorems -/

/-- C1 (counterexample): validate is not side-effect-free when the proposal
contains a `create` patch.  On the empty file system, validating a proposal
whose single patch creates `addons/new.txt` with snippet `hi` succeeds, yet
after validate returns the file exists with content `hi` although it did not
exist before the call — the `create` branch takes no backup, and the
unconditional restore loop only copies backups back, so the created file is
never removed.  This falsifies the claim that every file touched by the
proposal's patches is byte-identical to its pre-validate content. -/
theorem validate_create_persists_counterexample :
    fsRead ([] : FS) "addons/new.txt" = none ∧
    fsRead (validate ([] : FS)
        { status := "proposed",
          patches := [{ target := "addons/new.txt", action := "create", snippet := some "hi".data }],
          tests := [] }
        (fun _ => { exitCode := 0 })).1 "addons/new.txt" = some "hi".data ∧
    some "hi".data ≠ (none : Option Content) :=
  ⟨rfl, rfl, by decide⟩

/-- C1 (amended): after `validate` returns — for any proposal, any test
outcomes, and whether the patches all applied or one failed partway — every
file that existed before the call is byte-identical to its pre-validate
content; only files created by a `create` patch can remain behind. -/
theorem validate_preserves_existing_files (fs : FS) (r0 : Record)
    (oracle : Nat → CmdOutcome) (p : String) (c : Content)
    (h : fsRead fs p = some c) :
    fsRead (validate fs r0 oracle).1 p = some c := by
  have main := applyLoop_restore_invariant r0.patches fs [] fs
      (fun q => Or.inl (by simp [restoreBackups]))
      (fun q hq => hq) p
  have hval : (validate fs r0 oracle).1 =
      restoreBackups (loopFS (applyLoop fs [] r0.patches)).1
        (loopFS (applyLoop fs [] r0.patches)).2.reverse := by
    unfold validate
    cases happly : applyLoop fs [] r0.patches with
    | inl out => obtain ⟨fs1, bks⟩ := out; simp [loopFS]
    | inr out => obtain ⟨e, fs1, bks⟩ := out; simp [loopFS]
  rw [hval]
  rcases main with heq | hnone
  · rw [heq]; exact h
  · rw [h] at hnone; exact absurd hnone (by simp)

/-- C1 (witness): a concrete pre-existing file survives a validate call
byte-identically, here with a failing test step. -/
theorem validate_preserves_existing_files_witness :
    fsRead [("addons/a.txt", "hi".data)] "addons/a.txt" = some "hi".data ∧
    fsRead (validate [("addons/a.txt", "hi".data)]
        { status := "proposed",
          patches := [{ target := "addons/a.txt", action := "append", snippet := some "Z".data }],
          tests := [] }
        (fun _ => { exitCode := 1 })).1 "addons/a.txt" = some "hi".data :=
  ⟨rfl, validate_preserves_existing_files _ _ _ _ _ rfl⟩

/-- C2 (code evaluated at the failing input): approve has no try/catch
around its patch loop, so when the second patch of a proposal fails after
the first has been applied, the call surfaces the error with the first
patch still applied — the backup taken during the failed attempt is not
restored.  Concretely: on `addons/x.txt` containing `hi`, the proposal
`[append "A", replace "ZZZ" -> "Q"]` leaves the file at `hi\nA` while
returning the `No match` error. -/
theorem approve_partial_failure_leaves_patches_applied :
    approve [("addons/x.txt", "hi".data)]
        { status := "proposed",
          patches := [{ target := "addons/x.txt", action := "append", snippet := some "A".data },
                      { target := "addons/x.txt", action := "replace",
                        find := some "ZZZ".data, repl := some "Q".data }],
          tests := [] }
        { exitCode := 0 } =
      ([("addons/x.txt", "hi\nA".data)], .error "No match for find in addons/x.txt") ∧
    "hi\nA".data ≠ "hi".data :=
  ⟨rfl, by decide⟩

/-- C3 (code evaluated at the failing input): the write fence is checked by
`applyJsonPatch` one patch at a time, not for the whole batch up front.
With `addons/x.txt` containing `hi`, approving the batch
`[append "A" to addons/x.txt, append to server.js]` applies the first patch
and only then rejects the second for its disallowed target, leaving
`addons/x.txt` mutated to `hi\nA` — not zero filesystem mutation. -/
theorem approve_fence_checked_per_patch_not_batch :
    approve [("addons/x.txt", "hi".data)]
        { status := "proposed",
          patches := [{ target := "addons/x.txt", action := "append", snippet := some "A".data },
                      { target := "server.js", action := "append", snippet := some "B".data }],
          tests := [] }
        { exitCode := 0 } =
      ([("addons/x.txt", "hi\nA".data)], .error "Path not allowed by write fence: server.js") ∧
    "hi\nA".data ≠ "hi".data :=
  ⟨rfl, by decide⟩

/-- C4 (code evaluated at the failing input): approve has no status guard.
A first approve of an `append` proposal sets status `applied`; a second
approve of the very same record succeeds again and re-applies the patch, so
the file ends with the snippet appended twice — there is no
`AlreadyApplied` rejection. -/
theorem approve_double_apply_not_rejected :
    (approve [("addons/x.txt", "hi".data)]
        { status := "proposed",
          patches := [{ target := "addons/x.txt", action := "append", snippet := some "A".data }],
          tests := [] }
        { exitCode := 0 } =
      ([("addons/x.txt", "hi\nA".data)],
       .ok { status := "applied",
             patches := [{ target := "addons/x.txt", action := "append", snippet := some "A".data }],
             tests := [],
             applyRec := some { backups := [{ backupPath := some "hi".data, target := "addons/x.txt" }] } })) ∧
    (approve [("addons/x.txt", "hi\nA".data)]
        { status := "applied",
          patches := [{ target := "addons/x.txt", action := "append", snippet := some "A".data }],
          tests := [],
          applyRec := some { backups := [{ backupPath := some "hi".data, target := "addons/x.txt" }] } }
        { exitCode := 0 } =
      ([("addons/x.txt", "hi\nA\nA".data)],
       .ok { status := "applied",
             patches := [{ target := "addons/x.txt", action := "append", snippet := some "A".data }],
             tests := [],
             applyRec := some { backups := [{ backupPath := some "hi\nA".data, target := "addons/x.txt" }] } })) ∧
    "hi\nA\nA".data ≠ "hi\nA".data :=
  ⟨rfl, rfl, by decide⟩

/-- C5 (counterexample): `isValidPatch` only checks that `target` and
`action` are strings, so a generator output whose single patch has the
empty-string target and the unrecognized action `frobnicate` passes the
structural check and is persisted by propose — it is not rejected with
`InvalidProposal` as claimed. -/
theorem isValidPatch_accepts_unrecognized_action_counterexample :
    isValidPatch { target := some "", action := some "frobnicate" } = true ∧
    propose [] (some [{ target := some "", action := some "frobnicate" }]) =
      .ok [[{ target := some "", action := some "frobnicate" }]] ∧
    "frobnicate" ∉ recognizedActions :=
  ⟨rfl, rfl, by decide⟩

/-- C5 (amended): the structural validation propose performs is exactly
string-typedness of `target` and `action`: every patch of a persisted
proposal has both fields present as strings, and a generator output with a
patch missing either (or with no patches array) is rejected with the
`Invalid patches in mirror proposal.` error and nothing is persisted;
recognized actions and non-empty targets are not enforced at propose time. -/
theorem propose_structural_check_spec (store : List (List RawPatch))
    (gen : Option (List RawPatch)) :
    (∀ st', propose store gen = .ok st' →
      ∃ ps, gen = some ps ∧ st' = store ++ [ps] ∧
        ∀ p, p ∈ ps → p.target.isSome = true ∧ p.action.isSome = true) ∧
    (∀ ps p, gen = some ps → p ∈ ps → (p.target = none ∨ p.action = none) →
      propose store gen = .error "Invalid patches in mirror proposal.") := by
  constructor
  · intro st' hok
    cases gen with
    | none => simp [propose, generatePatchCheck] at hok
    | some ps =>
      refine ⟨ps, rfl, ?_, ?_⟩
      · by_cases hall : ps.all isValidPatch
        · exact ((by simpa [propose, generatePatchCheck, hall] using hok : store ++ [ps] = st')).symm
        · simp [propose, generatePatchCheck, hall] at hok
      · intro p hp
        by_cases hall : ps.all isValidPatch
        · have := List.all_eq_true.mp hall p hp
          simp only [isValidPatch, Bool.and_eq_true] at this
          exact this
        · simp [propose, generatePatchCheck, hall] at hok
  · intro ps p hgen hp hbad
    subst hgen
    have hinv : isValidPatch p = false := by
      rcases hbad with h | h <;> simp [isValidPatch, h]
    have hall : ps.all isValidPatch = false := by
      rw [List.all_eq_false]
      exact ⟨p, hp, by simp [hinv]⟩
    simp [propose, generatePatchCheck, hall]

/-- C5 (witness): a patch with a missing target field is rejected and a
well-typed one is accepted, at concrete inputs. -/
theorem propose_structural_check_spec_witness :
    propose [] (some [{ target := none, action := some "append" }]) =
      .error "Invalid patches in mirror proposal." ∧
    (∀ p, p ∈ [{ target := some "addons/a", action := some "append" : RawPatch }] →
      p.target.isSome = true ∧ p.action.isSome = true) :=
  ⟨(propose_structural_check_spec [] (some [{ target := none, action := some "append" }])).2
      [{ target := none, action := some "append" }]
      { target := none, action := some "append" } rfl (by simp) (Or.inl rfl),
   by
    have h := (propose_structural_check_spec []
        (some [{ target := some "addons/a", action := some "append" : RawPatch }])).1
        [[{ target := some "addons/a", action := some "append" : RawPatch }]] rfl
    obtain ⟨ps, hps, -, hall⟩ := h
    cases hps
    exact hall⟩

/-- C8: the write fence accepts the target `core.json` unconditionally via
its special-case first line, even though `core.json` neither equals nor
extends the sole allow-list entry `addons/`. -/
theorem fence_core_json_unconditional :
    assertAllowed "core.json" = .ok () ∧
    PATCH_ALLOW = ["addons/"] ∧
    (("core.json" == "addons/") || strStartsWith "core.json" "addons/") = false :=
  ⟨rfl, rfl, rfl⟩

/-! ### Validation runner lemmas (C7) -/

/-- The test loop never aborts: it produces one result per step. -/
theorem runStepsLoop_length (oracle : Nat → CmdOutcome) (i : Nat) (b : Bool) (steps : List Step) :
    (runStepsLoop oracle i b steps).1.length = steps.length := by
  induction steps generalizing i b with
  | nil => rfl
  | cons s rest ih => simp [runStepsLoop, ih]

/-- The `allOk` accumulator computes the conjunction of the per-step `ok`
flags on top of its initial value. -/
theorem runStepsLoop_allOk (oracle : Nat → CmdOutcome) (i : Nat) (b : Bool) (steps : List Step) :
    (runStepsLoop oracle i b steps).2
      = (b && (runStepsLoop oracle i b steps).1.all (fun res => res.ok)) := by
  induction steps generalizing i b with
  | nil => simp [runStepsLoop]
  | cons s rest ih =>
    simp only [runStepsLoop, List.all_cons]
    rw [ih]
    cases hr : (runCmd (oracle i)).ok <;> simp [mkStepResult, hr, Bool.and_assoc]

/-- Each recorded `ok` flag is exactly the zero-exit test of the
corresponding spawned command. -/
theorem runStepsLoop_get_ok (oracle : Nat → CmdOutcome) (steps : List Step) :
    ∀ (i : Nat) (b : Bool) (k : Nat) (hk : k < (runStepsLoop oracle i b steps).1.length),
      ((runStepsLoop oracle i b steps).1.get ⟨k, hk⟩).ok = ((oracle (i + k)).exitCode == 0) := by
  induction steps with
  | nil => intro i b k hk; simp [runStepsLoop] at hk
  | cons s rest ih =>
    intro i b k hk
    cases k with
    | zero => simp [runStepsLoop, mkStepResult, runCmd, List.get]
    | succ k' =>
      have hk' : k' < (runStepsLoop oracle (i + 1)
          (if (runCmd (oracle i)).ok then b else false) rest).1.length := by
        simpa [runStepsLoop, runStepsLoop_length] using hk
      have := ih (i + 1) (if (runCmd (oracle i)).ok then b else false) k' hk'
      simp only [runStepsLoop, List.get] at this ⊢
      rw [show i + (k' + 1) = i + 1 + k' from by omega]
      exact this

/-- C7: for every list of test steps and every pattern of subprocess
outcomes, the validate test loop executes every step (one result per step,
no early abort on a failing step), each step's recorded `ok` is precisely
"its command exited zero", and the reported `allOk` is the conjunction of
the per-step `ok` values. -/
theorem validation_runner_all_steps (oracle : Nat → CmdOutcome) (steps : List Step) :
    ((runSteps oracle steps).1.length = steps.length) ∧
    ((runSteps oracle steps).2 = (runSteps oracle steps).1.all (fun res => res.ok)) ∧
    (∀ (k : Nat) (hk : k < (runSteps oracle steps).1.length),
      ((runSteps oracle steps).1.get ⟨k, hk⟩).ok = ((oracle k).exitCode == 0)) := by
  refine ⟨runStepsLoop_length oracle 0 true steps, ?_, ?_⟩
  · simpa using runStepsLoop_allOk oracle 0 true steps
  · intro k hk
    simpa using runStepsLoop_get_ok oracle steps 0 true k hk

/-- Concrete steps for the C7 witness: two commands of which the first
fails. -/
def stepsW7 : List Step := [{ cmd := "cmd1" }, { cmd := "cmd2" }]

/-- Concrete subprocess outcomes for the C7 witness. -/
def oracleW7 : Nat → CmdOutcome := fun k => if k = 0 then { exitCode := 1 } else { exitCode := 0 }

/-- C7 (witness): with a failing first command, the second step is still
executed and recorded (`ok = true` at index 1) while `allOk` is `false`. -/
theorem validation_runner_all_steps_witness :
    ((runSteps oracleW7 stepsW7).1.get ⟨1, by decide⟩).ok = ((oracleW7 1).exitCode == 0) ∧
    (runSteps oracleW7 stepsW7).2 = false :=
  ⟨(validation_runner_all_steps oracleW7 stepsW7).2.2 1 (by decide), by decide⟩

/-! ### Patch-engine theorems (C6, C9, C10) -/

/-- C6 (counterexample): `insertAfter` does not splice the snippet
immediately after the anchor — the code inserts `'\n' + snippet`, so a
newline stands between them.  On file content `abc`, anchor `a`, snippet
`X`, the result is `a\nXbc`, not the `aXbc` the claim describes (which
would equal `"a" ++ "X" ++ "bc"`). -/
theorem insertAfter_inserts_newline_counterexample :
    applyJsonPatch [("addons/f.txt", "abc".data)]
      { target := "addons/f.txt", action := "insertAfter",
        anchor := some "a".data, snippet := some "X".data } =
    .ok ([("addons/f.txt", "a\nXbc".data)],
         { backupPath := some "abc".data, target := "addons/f.txt" }) ∧
    "aXbc".data = "a".data ++ "X".data ++ "bc".data ∧
    "a\nXbc".data ≠ "aXbc".data :=
  ⟨rfl, rfl, by decide⟩

/-- C6 (amended): for an allowed `insertAfter` patch, the engine fails with
`File not found` when the target is absent and `Anchor not found` when the
anchor has no occurrence; otherwise it backs up the current content and
writes the content with a newline followed by the snippet spliced
immediately after the first occurrence of the anchor (the returned index is
an occurrence and no earlier index is). -/
theorem insertAfter_spec (fs : FS) (patch : Patch)
    (hact : patch.action = "insertAfter")
    (hallow : assertAllowed patch.target = .ok ()) :
    (fsRead fs patch.target = none →
      applyJsonPatch fs patch = .error ("File not found: " ++ patch.target)) ∧
    (∀ cur, fsRead fs patch.target = some cur →
      (strFindIdx (patch.anchor.getD []) cur = none →
        applyJsonPatch fs patch = .error ("Anchor not found in " ++ patch.target)) ∧
      (∀ i, strFindIdx (patch.anchor.getD []) cur = some i →
        applyJsonPatch fs patch =
          .ok (fsWrite fs patch.target
                (cur.take (i + (patch.anchor.getD []).length)
                  ++ '\n' :: patch.snippet.getD []
                  ++ cur.drop (i + (patch.anchor.getD []).length)),
               { backupPath := some cur, target := patch.target }) ∧
        (patch.anchor.getD []).isPrefixOf (cur.drop i) = true ∧
        (∀ j, j < i → (patch.anchor.getD []).isPrefixOf (cur.drop j) = false))) := by
  constructor
  · intro hnone
    simp [applyJsonPatch, hallow, hact, hnone]
  · intro cur hread
    constructor
    · intro hidx
      simp [applyJsonPatch, hallow, hact, hread, hidx]
    · intro i hidx
      refine ⟨?_, strFindIdx_found _ _ _ hidx, strFindIdx_minimal _ _ _ hidx⟩
      simp [applyJsonPatch, hallow, hact, hread, hidx]

/-- C6 (witness): inserting after anchor `b` in `abc` yields `ab\nXc`, with
the backup holding the pre-write content. -/
theorem insertAfter_spec_witness :
    applyJsonPatch [("addons/f.txt", "abc".data)]
      { target := "addons/f.txt", action := "insertAfter",
        anchor := some "b".data, snippet := some "X".data } =
      .ok ([("addons/f.txt", "ab\nXc".data)],
           { backupPath := some "abc".data, target := "addons/f.txt" }) :=
  (((insertAfter_spec [("addons/f.txt", "abc".data)]
      { target := "addons/f.txt", action := "insertAfter",
        anchor := some "b".data, snippet := some "X".data }
      rfl rfl).2 "abc".data rfl).2 1 rfl).1

/-- C10: an `insertAfter` patch whose anchor is absent (`undefined`) or the
empty string does not fail with `Anchor not found` on an existing file:
`patch.anchor || ''` makes the anchor empty, the empty string is found at
index 0, and the newline-preceded snippet lands at the very start of the
file. -/
theorem insertAfter_empty_anchor_inserts_at_start (fs : FS) (patch : Patch) (cur : Content)
    (hact : patch.action = "insertAfter")
    (hallow : assertAllowed patch.target = .ok ())
    (hanchor : patch.anchor = none ∨ patch.anchor = some [])
    (hread : fsRead fs patch.target = some cur) :
    applyJsonPatch fs patch =
      .ok (fsWrite fs patch.target ('\n' :: (patch.snippet.getD [] ++ cur)),
           { backupPath := some cur, target := patch.target }) := by
  have hgetD : patch.anchor.getD [] = [] := by rcases hanchor with h | h <;> simp [h]
  have h := (((insertAfter_spec fs patch hact hallow).2 cur hread).2 0 (by
    rw [hgetD]; exact strFindIdx_nil cur)).1
  simpa [hgetD] using h

/-- C10 (witness): a patch with no anchor field on file `abc` puts
`\nX` in front: the result is `\nXabc`, not an `Anchor not found` error. -/
theorem insertAfter_empty_anchor_inserts_at_start_witness :
    applyJsonPatch [("addons/f.txt", "abc".data)]
      { target := "addons/f.txt", action := "insertAfter", snippet := some "X".data } =
      .ok ([("addons/f.txt", "\nXabc".data)],
           { backupPath := some "abc".data, target := "addons/f.txt" }) :=
  insertAfter_empty_anchor_inserts_at_start [("addons/f.txt", "abc".data)]
    { target := "addons/f.txt", action := "insertAfter", snippet := some "X".data }
    "abc".data rfl rfl (Or.inl rfl) rfl

/-- C9: when a `replace` patch's `find` string occurs at a first position
`i` (as computed by the engine) and again at a later disjoint position `j`,
the successful application substitutes only the first occurrence: the new
content is the prefix before `i`, then the replacement, then the untouched
remainder of the file, no earlier index holds an occurrence, and the later
occurrence is still present, shifted by the replacement length.  The
hypothesis `repl ≠ find` rules out the degenerate patch the engine rejects
as `No match` (replacing a string with itself leaves the content identical,
which the code treats as failure). -/
theorem replace_first_occurrence_only (fs : FS) (patch : Patch) (cur f : Content) (i j : Nat)
    (hact : patch.action = "replace")
    (hallow : assertAllowed patch.target = .ok ())
    (hread : fsRead fs patch.target = some cur)
    (hfind : patch.find = some f)
    (hne : f ≠ [])
    (hi : strFindIdx f cur = some i)
    (hj : f.isPrefixOf (cur.drop j) = true)
    (hdisj : i + f.length ≤ j)
    (hrf : patch.repl.getD [] ≠ f) :
    applyJsonPatch fs patch =
      .ok (fsWrite fs patch.target
             (cur.take i ++ patch.repl.getD [] ++ cur.drop (i + f.length)),
           { backupPath := some cur, target := patch.target }) ∧
    (∀ k, k < i → f.isPrefixOf (cur.drop k) = false) ∧
    f.isPrefixOf
      ((cur.take i ++ patch.repl.getD [] ++ cur.drop (i + f.length)).drop
        (i + (patch.repl.getD []).length + (j - (i + f.length)))) = true := by
  have hile : i ≤ cur.length := strFindIdx_le_length f cur i hi
  have htklen : (cur.take i).length = i := by
    rw [List.length_take]; omega
  obtain ⟨t, ht⟩ := isPrefixOf_exists f (cur.drop i) (strFindIdx_found f cur i hi)
  have hcur : cur = cur.take i ++ (f ++ t) := by
    conv_lhs => rw [← List.take_append_drop i cur, ht]
  have hnext : replaceFirst cur f (patch.repl.getD []) =
      cur.take i ++ patch.repl.getD [] ++ cur.drop (i + f.length) := by
    simp [replaceFirst, hi]
  have hneq : replaceFirst cur f (patch.repl.getD []) ≠ cur := by
    have hdropt : cur.drop (i + f.length) = t := by
      conv_lhs => rw [hcur, ← List.append_assoc]
      rw [← show (cur.take i ++ f).length = i + f.length from by
            simp [List.length_append, htklen]]
      exact List.drop_left _ _
    rw [hnext, hdropt]
    intro heq
    nth_rewrite 2 [hcur] at heq
    rw [List.append_assoc] at heq
    exact hrf (List.append_cancel_right (List.append_cancel_left heq))
  refine ⟨?_, strFindIdx_minimal f cur i hi, ?_⟩
  · simp only [applyJsonPatch, hallow, hact, hread, hfind]
    simp [hne, hnext, hneq]
    rw [← List.append_assoc, ← hnext]
    exact hneq
  · have harr : (cur.take i ++ patch.repl.getD [] ++ cur.drop (i + f.length)).drop
        (i + (patch.repl.getD []).length + (j - (i + f.length)))
        = cur.drop j := by
      rw [show i + (patch.repl.getD []).length + (j - (i + f.length))
            = (cur.take i ++ patch.repl.getD []).length + (j - (i + f.length)) from by
          simp [List.length_append, htklen]]
      rw [drop_append_length, List.drop_drop,
          show i + f.length + (j - (i + f.length)) = j from by omega]
    rw [harr]
    exact hj

/-- C9 (witness): replacing `ab` by `X` in `abab` yields `Xab` — only the
first occurrence is substituted, and the second occurrence (at index 2 of
the original, still present in the untouched suffix) survives. -/
theorem replace_first_occurrence_only_witness :
    applyJsonPatch [("addons/t.txt", "abab".data)]
      { target := "addons/t.txt", action := "replace",
        find := some "ab".data, repl := some "X".data } =
      .ok ([("addons/t.txt", "Xab".data)],
           { backupPath := some "abab".data, target := "addons/t.txt" }) ∧
    "ab".data.isPrefixOf ("abab".data.drop 2) = true :=
  ⟨(replace_first_occurrence_only [("addons/t.txt", "abab".data)]
      { target := "addons/t.txt", action := "replace",
        find := some "ab".data, repl := some "X".data }
      "abab".data "ab".data 0 2 rfl rfl rfl rfl (by decide) (by decide) (by decide)
      (by decide) (by decide)).1,
   by decide⟩

end Aurion
